import Mathlib

/-!
Shallow embedding of the `index_key` crate (src/lib.rs): an order-preserving
binary key encoding for scalar values and tuples.

Bytes are modelled as `Nat` (values < 256 where boundedness matters), byte
strings as `List Nat`.  Machine integers are modelled by their bit patterns
as `Nat` with explicit `% 2 ^ w`; signed values as `Int` in two's-complement
range.  A `Read` source is a `List Nat`; a decoder consumes a prefix and
returns the decoded value together with the remaining input, or an error
(`read_exact` on a `Cursor` fails exactly when fewer bytes remain than
requested, with an unexpected-EOF error).
-/

/-- Decode errors: the only error the Rust code can produce when reading from
an in-memory cursor is `read_exact`'s unexpected-EOF (truncation). -/
inductive DecErr : Type
  | eof : DecErr
deriving DecidableEq, Repr

/-- Byte-wise lexicographic strict order on byte strings: exactly the
derived `Ord`/`PartialOrd` comparison of Rust `Vec<u8>`/`[u8]` (a strict
prefix is smaller). -/
def byteLt : List Nat → List Nat → Bool
  | [], [] => false
  | [], _ :: _ => true
  | _ :: _, [] => false
  | a :: as, b :: bs => decide (a < b) || (decide (a = b) && byteLt as bs)

/-- `isPref u v`: `u` is a prefix (initial segment) of `v`. -/
def isPref : List Nat → List Nat → Bool
  | [], _ => true
  | _ :: _, [] => false
  | a :: as, b :: bs => decide (a = b) && isPref as bs

/-- Big-endian byte string of `n` on `w` bytes (Rust `to_be_bytes` for a
`w`-byte unsigned integer, applied to `n < 256 ^ w`). -/
def toBeBytes : Nat → Nat → List Nat
  | 0, _ => []
  | w + 1, n => n / 256 ^ w :: toBeBytes w (n % 256 ^ w)

/-- Big-endian value of a byte string (Rust `from_be_bytes`). -/
def fromBeBytes : List Nat → Nat
  | [] => 0
  | b :: rest => b * 256 ^ rest.length + fromBeBytes rest

/-- Rust `Read::read_exact` of `w` bytes from an in-memory cursor: yields the
`w` bytes read and the remaining input, or an unexpected-EOF error when fewer
than `w` bytes remain. -/
def readExact (w : Nat) (input : List Nat) : Except DecErr (List Nat × List Nat) :=
  if w ≤ input.length then .ok (input.take w, input.drop w) else .error .eof

/-- `impl_u` `to_key` for a `w`-byte unsigned integer: big-endian bytes. -/
def uToKey (w n : Nat) : List Nat := toBeBytes w n

/-- `impl_u` `from_key`: read exactly `w` bytes, interpret big-endian. -/
def uFromKey (w : Nat) (input : List Nat) : Except DecErr (Nat × List Nat) :=
  (readExact w input).map fun p => (fromBeBytes p.1, p.2)

/-- Two's-complement bit pattern (as `Nat`) of an integer, at `W` bits. -/
def toPat (W : Nat) (v : Int) : Nat := (v % (2 ^ W : Nat)).toNat

/-- Integer value of a `W`-bit two's-complement pattern. -/
def patToInt (W : Nat) (n : Nat) : Int :=
  if n < 2 ^ (W - 1) then (n : Int) else (n : Int) - (2 ^ W : Nat)

/-- `impl_i` `to_key` for a `w`-byte signed integer: XOR the bit pattern with
`MIN` (pattern `2 ^ (8w - 1)`, only the sign bit set), then big-endian bytes. -/
def iToKey (w : Nat) (v : Int) : List Nat :=
  toBeBytes w (toPat (8 * w) v ^^^ 2 ^ (8 * w - 1))

/-- `impl_i` `from_key`: read `w` bytes big-endian, XOR with `MIN` again,
reinterpret as a signed value. -/
def iFromKey (w : Nat) (input : List Nat) : Except DecErr (Int × List Nat) :=
  (readExact w input).map fun p => (patToInt (8 * w) (fromBeBytes p.1 ^^^ 2 ^ (8 * w - 1)), p.2)

/-- The `impl_f` `to_key` bit transform on a `W`-bit float pattern `p`:
`((v >> (W-1)) | MIN) ^ v` where `v` is `p` read as a signed integer and the
shift is arithmetic.  At pattern level the arithmetic shift by `W - 1` yields
the all-ones pattern `2 ^ W - 1` when the sign bit of `p` is set and `0`
otherwise. -/
def fKeyPat (W p : Nat) : Nat :=
  ((if p < 2 ^ (W - 1) then 0 else 2 ^ W - 1) ||| 2 ^ (W - 1)) ^^^ p

/-- The `impl_f` `from_key` inverse bit transform: `((!v >> (W-1)) | MIN) ^ v`
on the decoded pattern `v`; the arithmetic shift of the complement is all-ones
exactly when the sign bit of `v` is clear. -/
def fDecPat (W p : Nat) : Nat :=
  ((if p < 2 ^ (W - 1) then 2 ^ W - 1 else 0) ||| 2 ^ (W - 1)) ^^^ p

/-- `impl_f` `to_key` for a `w`-byte float given its bit pattern. -/
def fToKey (w p : Nat) : List Nat := toBeBytes w (fKeyPat (8 * w) p)

/-- `impl_f` `from_key`: read `w` bytes big-endian, invert the transform. -/
def fFromKey (w : Nat) (input : List Nat) : Except DecErr (Nat × List Nat) :=
  (readExact w input).map fun p => (fDecPat (8 * w) (fromBeBytes p.1), p.2)

/-- `bool` `to_key`: one byte, `1` for true and `0` for false. -/
def boolToKey (b : Bool) : List Nat := if b then [1] else [0]

/-- `bool` `from_key`: read one byte; any nonzero byte decodes to `true`. -/
def boolFromKey (input : List Nat) : Except DecErr (Bool × List Nat) :=
  (readExact 1 input).map fun p => (decide (p.1.headD 0 ≠ 0), p.2)

/-- `escape_encode`: for each source byte `b`, emit the escape marker `1`
first when `b` is `0` or `1`, then `b` itself; after the source is exhausted
emit the terminator byte `0`. -/
def escape_encode : List Nat → List Nat
  | [] => [0]
  | b :: rest =>
    if b = 0 ∨ b = 1 then 1 :: b :: escape_encode rest else b :: escape_encode rest

/-- `escape_decode` body: `state` is the Rust `state` flag (`true` = normal).
In normal state an unescaped `0` terminates (returning the remaining input);
a `1` switches to literal state; any other byte is emitted.  In literal state
the byte is emitted verbatim.  When the source is exhausted the loop simply
ends and the function returns `Ok` with whatever was accumulated. -/
def escDecodeAux : Bool → List Nat → List Nat × List Nat
  | _, [] => ([], [])
  | state, b :: rest =>
    if state then
      if b = 0 then ([], rest)
      else if b = 1 then escDecodeAux false rest
      else ((escDecodeAux true rest).1.cons b, (escDecodeAux true rest).2)
    else ((escDecodeAux true rest).1.cons b, (escDecodeAux true rest).2)

/-- `escape_decode` from the initial (normal) state. -/
def escape_decode (input : List Nat) : List Nat × List Nat := escDecodeAux true input

/-- `Vec<u8>` `to_key`: escape-encode the bytes. -/
def vecToKey (s : List Nat) : List Nat := escape_encode s

/-- `Vec<u8>` `from_key`: escape-decode; never fails on an in-memory source. -/
def vecFromKey (input : List Nat) : Except DecErr (List Nat × List Nat) :=
  .ok (escape_decode input)

/-- Is `b` a UTF-8 continuation byte (`0x80..0xBF`)? -/
def cont (b : Nat) : Bool := 0x80 ≤ b && b ≤ 0xBF

/-- Allowed second byte of a 3-byte UTF-8 sequence headed by `b1`
(per the UTF-8 validation table used by Rust `str` validation). -/
def sec3 (b1 b2 : Nat) : Bool :=
  (b1 == 0xE0 && 0xA0 ≤ b2 && b2 ≤ 0xBF) ||
  (0xE1 ≤ b1 && b1 ≤ 0xEC && cont b2) ||
  (b1 == 0xED && 0x80 ≤ b2 && b2 ≤ 0x9F) ||
  (0xEE ≤ b1 && b1 ≤ 0xEF && cont b2)

/-- Allowed second byte of a 4-byte UTF-8 sequence headed by `b1`. -/
def sec4 (b1 b2 : Nat) : Bool :=
  (b1 == 0xF0 && 0x90 ≤ b2 && b2 ≤ 0xBF) ||
  (0xF1 ≤ b1 && b1 ≤ 0xF3 && cont b2) ||
  (b1 == 0xF4 && 0x80 ≤ b2 && b2 ≤ 0x8F)

/-- Model of Rust `String::from_utf8_lossy` on a byte list, producing the
list of Unicode scalar values: well-formed sequences decode to their scalar
value; each maximal valid prefix of an ill-formed sequence is replaced by one
replacement character `U+FFFD` (0xFFFD). -/
def utf8Lossy : List Nat → List Nat
  | [] => []
  | b1 :: rest =>
    if b1 < 0x80 then b1 :: utf8Lossy rest
    else if 0xC2 ≤ b1 && b1 ≤ 0xDF then
      match rest with
      | b2 :: rest2 =>
        if cont b2 then ((b1 - 0xC0) * 64 + (b2 - 0x80)) :: utf8Lossy rest2
        else 0xFFFD :: utf8Lossy (b2 :: rest2)
      | [] => [0xFFFD]
    else if 0xE0 ≤ b1 && b1 ≤ 0xEF then
      match rest with
      | b2 :: rest2 =>
        if sec3 b1 b2 then
          match rest2 with
          | b3 :: rest3 =>
            if cont b3 then
              ((b1 - 0xE0) * 4096 + (b2 - 0x80) * 64 + (b3 - 0x80)) :: utf8Lossy rest3
            else 0xFFFD :: utf8Lossy (b3 :: rest3)
          | [] => [0xFFFD]
        else 0xFFFD :: utf8Lossy (b2 :: rest2)
      | [] => [0xFFFD]
    else if 0xF0 ≤ b1 && b1 ≤ 0xF4 then
      match rest with
      | b2 :: rest2 =>
        if sec4 b1 b2 then
          match rest2 with
          | b3 :: rest3 =>
            if cont b3 then
              match rest3 with
              | b4 :: rest4 =>
                if cont b4 then
                  ((b1 - 0xF0) * 262144 + (b2 - 0x80) * 4096 +
                    (b3 - 0x80) * 64 + (b4 - 0x80)) :: utf8Lossy rest4
                else 0xFFFD :: utf8Lossy (b4 :: rest4)
              | [] => [0xFFFD]
            else 0xFFFD :: utf8Lossy (b3 :: rest3)
          | [] => [0xFFFD]
        else 0xFFFD :: utf8Lossy (b2 :: rest2)
      | [] => [0xFFFD]
    else 0xFFFD :: utf8Lossy rest

/-- UTF-8 validity of a byte list (Rust `str` validation): the parallel
predicate to `utf8Lossy`, true exactly when every sequence is well formed. -/
def validUtf8 : List Nat → Bool
  | [] => true
  | b1 :: rest =>
    if b1 < 0x80 then validUtf8 rest
    else if 0xC2 ≤ b1 && b1 ≤ 0xDF then
      match rest with
      | b2 :: rest2 => if cont b2 then validUtf8 rest2 else false
      | [] => false
    else if 0xE0 ≤ b1 && b1 ≤ 0xEF then
      match rest with
      | b2 :: rest2 =>
        if sec3 b1 b2 then
          match rest2 with
          | b3 :: rest3 => if cont b3 then validUtf8 rest3 else false
          | [] => false
        else false
      | [] => false
    else if 0xF0 ≤ b1 && b1 ≤ 0xF4 then
      match rest with
      | b2 :: rest2 =>
        if sec4 b1 b2 then
          match rest2 with
          | b3 :: rest3 =>
            if cont b3 then
              match rest3 with
              | b4 :: rest4 => if cont b4 then validUtf8 rest4 else false
              | [] => false
            else false
          | [] => false
        else false
      | [] => false
    else false

/-- UTF-8 encoding of one Unicode scalar value (Rust `char` → bytes, as
produced by `String::into_bytes`). -/
def utf8EncodeChar (c : Nat) : List Nat :=
  if c < 0x80 then [c]
  else if c < 0x800 then [0xC0 + c / 64, 0x80 + c % 64]
  else if c < 0x10000 then [0xE0 + c / 4096, 0x80 + c / 64 % 64, 0x80 + c % 64]
  else [0xF0 + c / 262144, 0x80 + c / 4096 % 64, 0x80 + c / 64 % 64, 0x80 + c % 64]

/-- UTF-8 bytes of a string, modelled as its list of scalar values. -/
def utf8Encode (s : List Nat) : List Nat := (s.map utf8EncodeChar).flatten

/-- `c` is a Unicode scalar value (a valid Rust `char`). -/
def validScalar (c : Nat) : Prop := c < 0xD800 ∨ (0xE000 ≤ c ∧ c < 0x110000)

/-- `String` `to_key`: `self.into_bytes().to_key(..)`, i.e. escape-encode the
UTF-8 bytes. -/
def stringToKey (s : List Nat) : List Nat := escape_encode (utf8Encode s)

/-- `String` `from_key`: decode a `Vec<u8>`, then `String::from_utf8_lossy`. -/
def stringFromKey (input : List Nat) : Except DecErr (List Nat × List Nat) :=
  (vecFromKey input).map fun p => (utf8Lossy p.1, p.2)

/-- `impl_tuple` `to_key` for the shape `(Vec<u8>, u16)`: write the first
member's key, then the second member's key (sequential writes concatenate). -/
def pairToKey (a : List Nat) (b : Nat) : List Nat := vecToKey a ++ uToKey 2 b

/-- `impl_tuple` `from_key` for `(Vec<u8>, u16)`: decode the first member
from the front, the second from the remainder. -/
def pairFromKey (input : List Nat) : Except DecErr ((List Nat × Nat) × List Nat) := do
  let (a, rest) ← vecFromKey input
  let (b, rest2) ← uFromKey 2 rest
  pure ((a, b), rest2)

/-- The free function `from_key`: run a decoder on a cursor over the buffer
and return only the value, ignoring any unread bytes after it. -/
def from_key {α : Type} (dec : List Nat → Except DecErr (α × List Nat))
    (src : List Nat) : Except DecErr α :=
  (dec src).map Prod.fst

/-- Spec-side per-byte emission chunk of the escape scheme: bytes `0`/`1`
are preceded by the escape marker `1`, others pass through. -/
def escByteSpec (b : Nat) : List Nat := if b = 0 ∨ b = 1 then [1, b] else [b]

/-- Does the escape-decode state machine, started in state `st`, ever see an
unescaped terminator byte `0` in `input`? -/
def hasTerm : Bool → List Nat → Bool
  | _, [] => false
  | st, b :: rest =>
    if st then
      if b = 0 then true
      else if b = 1 then hasTerm false rest
      else hasTerm true rest
    else hasTerm true rest

/-- Bit pattern of `f32::INFINITY` (sign 0, exponent all ones, mantissa 0). -/
def f32Inf : Nat := 0x7F800000

/-- Bit pattern of `f64::INFINITY`. -/
def f64Inf : Nat := 0x7FF0000000000000

/-- Is the 32-bit pattern `p` a NaN (exponent all ones, mantissa nonzero)? -/
def isNan32 (p : Nat) : Bool := decide (f32Inf < p % 2 ^ 31)

/-- Is the 64-bit pattern `p` a NaN? -/
def isNan64 (p : Nat) : Bool := decide (f64Inf < p % 2 ^ 63)

/-! ### Bitwise arithmetic helpers -/

theorem two_pow_xor_of_lt {k m : Nat} (h : m < 2 ^ k) : 2 ^ k ^^^ m = 2 ^ k + m := by
  apply Nat.eq_of_testBit_eq
  intro i
  have hadd : 2 ^ k + m = 2 ^ k * 1 + m := by ring
  rw [Nat.testBit_xor, hadd, Nat.testBit_mul_pow_two_add 1 h i]
  rcases Nat.lt_trichotomy i k with hik | hik | hik
  · simp [hik, Nat.testBit_two_pow_of_ne (Nat.ne_of_gt hik)]
  · subst hik
    simp [Nat.testBit_two_pow_self, Nat.testBit_lt_two_pow h, Nat.lt_irrefl]
  · have h1 : m < 2 ^ i := lt_of_lt_of_le h (Nat.pow_le_pow_right (by norm_num) hik.le)
    have h2 : (1 : Nat) < 2 ^ (i - k) := by
      have : 0 < i - k := by omega
      calc (1 : Nat) < 2 ^ 1 := by norm_num
        _ ≤ 2 ^ (i - k) := Nat.pow_le_pow_right (by norm_num) this
    simp [Nat.not_lt.mpr hik.le, Nat.testBit_two_pow_of_ne (Nat.ne_of_lt hik),
      Nat.testBit_lt_two_pow h1, Nat.testBit_lt_two_pow h2]

theorem xor_two_pow_of_ge {k m : Nat} (h1 : 2 ^ k ≤ m) (h2 : m < 2 ^ (k + 1)) :
    m ^^^ 2 ^ k = m - 2 ^ k := by
  have hm : m - 2 ^ k < 2 ^ k := by
    have : 2 ^ (k + 1) = 2 ^ k + 2 ^ k := by ring
    omega
  have hrepr : m = 2 ^ k ^^^ (m - 2 ^ k) := by
    rw [two_pow_xor_of_lt hm]; omega
  calc m ^^^ 2 ^ k = 2 ^ k ^^^ (m - 2 ^ k) ^^^ 2 ^ k := by rw [← hrepr]
    _ = m - 2 ^ k := by
        rw [Nat.xor_comm (2 ^ k) (m - 2 ^ k), Nat.xor_assoc, Nat.xor_self, Nat.xor_zero]

theorem xor_all_ones {W n : Nat} (h : n < 2 ^ W) : n ^^^ (2 ^ W - 1) = 2 ^ W - 1 - n := by
  apply Nat.eq_of_testBit_eq
  intro i
  have hsub : 2 ^ W - 1 - n = 2 ^ W - (n + 1) := by omega
  rw [Nat.testBit_xor, Nat.testBit_two_pow_sub_one, hsub, Nat.testBit_two_pow_sub_succ h i]
  by_cases hiW : i < W
  · simp [hiW]
  · have : n < 2 ^ i := lt_of_lt_of_le h (Nat.pow_le_pow_right (by norm_num) (by omega))
    simp [hiW, Nat.testBit_lt_two_pow this]

theorem or_all_ones {W m : Nat} (h : m < 2 ^ W) : (2 ^ W - 1) ||| m = 2 ^ W - 1 := by
  apply Nat.eq_of_testBit_eq
  intro i
  rw [Nat.testBit_or, Nat.testBit_two_pow_sub_one]
  by_cases hiW : i < W
  · simp [hiW]
  · have : m < 2 ^ i := lt_of_lt_of_le h (Nat.pow_le_pow_right (by norm_num) (by omega))
    simp [hiW, Nat.testBit_lt_two_pow this]

theorem xor_min_eq {W n : Nat} (hW : 1 ≤ W) (hn : n < 2 ^ W) :
    n ^^^ 2 ^ (W - 1) = if n < 2 ^ (W - 1) then n + 2 ^ (W - 1) else n - 2 ^ (W - 1) := by
  have hWsucc : W - 1 + 1 = W := by omega
  by_cases hcase : n < 2 ^ (W - 1)
  · rw [if_pos hcase, Nat.xor_comm, two_pow_xor_of_lt hcase]
    omega
  · rw [if_neg hcase]
    exact xor_two_pow_of_ge (Nat.not_lt.mp hcase) (by rw [hWsucc]; exact hn)

theorem fKeyPat_eq {W p : Nat} (hW : 1 ≤ W) (hp : p < 2 ^ W) :
    fKeyPat W p = if p < 2 ^ (W - 1) then p + 2 ^ (W - 1) else 2 ^ W - 1 - p := by
  have hhalf : 2 ^ (W - 1) < 2 ^ W := Nat.pow_lt_pow_right (by norm_num) (by omega)
  unfold fKeyPat
  by_cases hcase : p < 2 ^ (W - 1)
  · rw [if_pos hcase, if_pos hcase, Nat.zero_or, two_pow_xor_of_lt hcase]
    omega
  · rw [if_neg hcase, if_neg hcase, or_all_ones hhalf, Nat.xor_comm, xor_all_ones hp]

theorem fDecPat_eq {W p : Nat} (hW : 1 ≤ W) (hp : p < 2 ^ W) :
    fDecPat W p = if p < 2 ^ (W - 1) then 2 ^ W - 1 - p else p - 2 ^ (W - 1) := by
  have hhalf : 2 ^ (W - 1) < 2 ^ W := Nat.pow_lt_pow_right (by norm_num) (by omega)
  have hWsucc : W - 1 + 1 = W := by omega
  unfold fDecPat
  by_cases hcase : p < 2 ^ (W - 1)
  · rw [if_pos hcase, if_pos hcase, or_all_ones hhalf, Nat.xor_comm, xor_all_ones hp]
  · rw [if_neg hcase, if_neg hcase, Nat.zero_or, Nat.xor_comm]
    exact xor_two_pow_of_ge (Nat.not_lt.mp hcase) (by rw [hWsucc]; exact hp)

theorem fKeyPat_lt {W p : Nat} (hW : 1 ≤ W) (hp : p < 2 ^ W) : fKeyPat W p < 2 ^ W := by
  have hhalf : 2 ^ (W - 1) + 2 ^ (W - 1) = 2 ^ W := by
    have : W - 1 + 1 = W := by omega
    calc 2 ^ (W - 1) + 2 ^ (W - 1) = 2 ^ (W - 1 + 1) := by ring
      _ = 2 ^ W := by rw [this]
  rw [fKeyPat_eq hW hp]
  by_cases hcase : p < 2 ^ (W - 1) <;> simp [hcase] <;> omega

/-! ### Big-endian bytes and lexicographic order -/

theorem toBeBytes_length (w n : Nat) : (toBeBytes w n).length = w := by
  induction w generalizing n with
  | zero => simp [toBeBytes]
  | succ w ih => simp [toBeBytes, ih]

theorem byteLt_toBeBytes {w a b : Nat} (ha : a < 256 ^ w) (hb : b < 256 ^ w) :
    byteLt (toBeBytes w a) (toBeBytes w b) = decide (a < b) := by
  induction w generalizing a b with
  | zero =>
    have ha0 : a = 0 := by simpa using ha
    have hb0 : b = 0 := by simpa using hb
    subst ha0; subst hb0
    simp [toBeBytes, byteLt]
  | succ w ih =>
    have hE : 0 < 256 ^ w := Nat.pos_pow_of_pos _ (by norm_num)
    have hmoda : a % 256 ^ w < 256 ^ w := Nat.mod_lt _ hE
    have hmodb : b % 256 ^ w < 256 ^ w := Nat.mod_lt _ hE
    simp only [toBeBytes, byteLt]
    rw [ih hmoda hmodb]
    rcases Nat.lt_trichotomy (a / 256 ^ w) (b / 256 ^ w) with h | h | h
    · have hab : a < b := by
        calc a = 256 ^ w * (a / 256 ^ w) + a % 256 ^ w := (Nat.div_add_mod a _).symm
          _ < 256 ^ w * (a / 256 ^ w) + 256 ^ w := by omega
          _ = 256 ^ w * (a / 256 ^ w + 1) := by ring
          _ ≤ 256 ^ w * (b / 256 ^ w) := Nat.mul_le_mul_left _ h
          _ ≤ 256 ^ w * (b / 256 ^ w) + b % 256 ^ w := Nat.le_add_right _ _
          _ = b := Nat.div_add_mod b _
      simp [h, hab]
    · have ea : 256 ^ w * (b / 256 ^ w) + a % 256 ^ w = a := by
        rw [← h]; exact Nat.div_add_mod a _
      have eb : 256 ^ w * (b / 256 ^ w) + b % 256 ^ w = b := Nat.div_add_mod b _
      have hiff : a % 256 ^ w < b % 256 ^ w ↔ a < b := by omega
      simp [h, hiff]
    · have hba : b < a := by
        calc b = 256 ^ w * (b / 256 ^ w) + b % 256 ^ w := (Nat.div_add_mod b _).symm
          _ < 256 ^ w * (b / 256 ^ w) + 256 ^ w := by omega
          _ = 256 ^ w * (b / 256 ^ w + 1) := by ring
          _ ≤ 256 ^ w * (a / 256 ^ w) := Nat.mul_le_mul_left _ h
          _ ≤ 256 ^ w * (a / 256 ^ w) + a % 256 ^ w := Nat.le_add_right _ _
          _ = a := Nat.div_add_mod a _
      have h1 : ¬ a / 256 ^ w < b / 256 ^ w := by omega
      have h2 : ¬ a / 256 ^ w = b / 256 ^ w := by omega
      have h3 : ¬ a < b := by omega
      simp [h1, h2, h3]

theorem two_pow_eq_256_pow (w : Nat) : (2 : Nat) ^ (8 * w) = 256 ^ w := by
  have h256 : (256 : Nat) = 2 ^ 8 := by norm_num
  rw [h256, ← pow_mul]

theorem fromBeBytes_toBeBytes {w n : Nat} (h : n < 256 ^ w) :
    fromBeBytes (toBeBytes w n) = n := by
  induction w generalizing n with
  | zero =>
    have : n = 0 := by simpa using h
    subst this
    simp [toBeBytes, fromBeBytes]
  | succ w ih =>
    have hE : 0 < 256 ^ w := Nat.pos_pow_of_pos _ (by norm_num)
    have hmod : n % 256 ^ w < 256 ^ w := Nat.mod_lt _ hE
    simp only [toBeBytes, fromBeBytes, ih hmod, toBeBytes_length]
    have hdm := Nat.div_add_mod n (256 ^ w)
    rw [Nat.mul_comm] at hdm
    omega

/-! ### Signed integer keys -/

theorem two_pow_split {W : Nat} (h : 1 ≤ W) : (2 : Nat) ^ W = 2 ^ (W - 1) + 2 ^ (W - 1) := by
  obtain ⟨k, rfl⟩ : ∃ k, W = k + 1 := ⟨W - 1, by omega⟩
  rw [Nat.add_sub_cancel, pow_succ]
  omega

theorem toPat_xor {w : Nat} {v : Int} (hw : 1 ≤ w)
    (h1 : -(((2 ^ (8 * w - 1) : Nat) : Int)) ≤ v) (h2 : v < ((2 ^ (8 * w - 1) : Nat) : Int)) :
    toPat (8 * w) v ^^^ 2 ^ (8 * w - 1) = (v + ((2 ^ (8 * w - 1) : Nat) : Int)).toNat := by
  have hpowN : (2 : Nat) ^ (8 * w) = 2 ^ (8 * w - 1) + 2 ^ (8 * w - 1) :=
    two_pow_split (by omega)
  have hBpos : 0 < (2 : Nat) ^ (8 * w - 1) := Nat.pos_pow_of_pos _ (by norm_num)
  have hpowNI : (((2 : Nat) ^ (8 * w) : Nat) : Int)
      = ((2 ^ (8 * w - 1) : Nat) : Int) + ((2 ^ (8 * w - 1) : Nat) : Int) := by
    exact_mod_cast hpowN
  unfold toPat
  by_cases hv : 0 ≤ v
  · have hmod : v % (((2 : Nat) ^ (8 * w) : Nat) : Int) = v :=
      Int.emod_eq_of_lt hv (by omega)
    rw [hmod]
    have hn : v.toNat < 2 ^ (8 * w) := by omega
    rw [xor_min_eq (by omega) hn, if_pos (by omega)]
    omega
  · have h0 : 0 ≤ v + (((2 : Nat) ^ (8 * w) : Nat) : Int) := by omega
    have hltA : v + (((2 : Nat) ^ (8 * w) : Nat) : Int) < (((2 : Nat) ^ (8 * w) : Nat) : Int) := by
      omega
    have hself := Int.add_mul_emod_self_left v (((2 : Nat) ^ (8 * w) : Nat) : Int) 1
    rw [Int.mul_one] at hself
    have hmod : v % (((2 : Nat) ^ (8 * w) : Nat) : Int)
        = v + (((2 : Nat) ^ (8 * w) : Nat) : Int) := by
      rw [← hself, Int.emod_eq_of_lt h0 hltA]
    rw [hmod]
    have hn : (v + (((2 : Nat) ^ (8 * w) : Nat) : Int)).toNat < 2 ^ (8 * w) := by omega
    rw [xor_min_eq (by omega) hn, if_neg (by omega)]
    omega

/-! ### Escape codec lemmas -/

theorem byteLt_append_left (u x y : List Nat) :
    byteLt (u ++ x) (u ++ y) = byteLt x y := by
  induction u with
  | nil => rfl
  | cons c cs ih => simp [byteLt, ih]

theorem byteLt_append_of_lt {u v : List Nat} (h : byteLt u v = true)
    (hp : isPref u v = false) (x y : List Nat) :
    byteLt (u ++ x) (v ++ y) = true := by
  induction u generalizing v with
  | nil => simp [isPref] at hp
  | cons a as ih =>
    cases v with
    | nil => simp [byteLt] at h
    | cons b bs =>
      simp only [byteLt, Bool.or_eq_true, Bool.and_eq_true, decide_eq_true_eq] at h
      rcases h with hab | ⟨hab, htail⟩
      · simp [byteLt, hab]
      · subst hab
        have hptail : isPref as bs = false := by simpa [isPref] using hp
        simp [byteLt, ih htail hptail]

theorem byteLt_of_strict_pref {s1 s2 : List Nat} (hp : isPref s1 s2 = true)
    (hne : s1 ≠ s2) : byteLt s1 s2 = true := by
  induction s1 generalizing s2 with
  | nil =>
    cases s2 with
    | nil => exact absurd rfl hne
    | cons b bs => rfl
  | cons a as ih =>
    cases s2 with
    | nil => simp [isPref] at hp
    | cons b bs =>
      simp only [isPref, Bool.and_eq_true, decide_eq_true_eq] at hp
      obtain ⟨hab, hp'⟩ := hp
      subst hab
      have hne' : as ≠ bs := by intro hcon; exact hne (by rw [hcon])
      simp [byteLt, ih hp' hne']

theorem escape_encode_lt {s1 s2 : List Nat} (h : byteLt s1 s2 = true) :
    byteLt (escape_encode s1) (escape_encode s2) = true ∧
      isPref (escape_encode s1) (escape_encode s2) = false := by
  induction s1 generalizing s2 with
  | nil =>
    cases s2 with
    | nil => simp [byteLt] at h
    | cons b bs =>
      by_cases hb : b = 0 ∨ b = 1
      · simp [escape_encode, hb, byteLt, isPref]
      · have hb2 : 2 ≤ b := by omega
        simp [escape_encode, hb, byteLt, isPref]
        omega
  | cons a as ih =>
    cases s2 with
    | nil => simp [byteLt] at h
    | cons b bs =>
      simp only [byteLt, Bool.or_eq_true, Bool.and_eq_true, decide_eq_true_eq] at h
      rcases h with hab | ⟨hab, htail⟩
      · by_cases ha : a = 0 ∨ a = 1
        · by_cases hb : b = 0 ∨ b = 1
          · have ha0 : a = 0 := by omega
            have hb1 : b = 1 := by omega
            subst ha0; subst hb1
            simp [escape_encode, byteLt, isPref]
          · have hb2 : 2 ≤ b := by omega
            simp [escape_encode, ha, hb, byteLt, isPref]
            omega
        · have ha2 : 2 ≤ a := by omega
          have hb2 : ¬ (b = 0 ∨ b = 1) := by omega
          simp [escape_encode, ha, hb2, byteLt, isPref]
          omega
      · subst hab
        obtain ⟨ihlt, ihpref⟩ := ih htail
        by_cases ha : a = 0 ∨ a = 1
        · simp [escape_encode, ha, byteLt, isPref, ihlt, ihpref]
        · simp [escape_encode, ha, byteLt, isPref, ihlt, ihpref]

theorem escDecodeAux_escape_encode (s rest : List Nat) :
    escDecodeAux true (escape_encode s ++ rest) = (s, rest) := by
  induction s with
  | nil => simp [escape_encode, escDecodeAux]
  | cons b bs ih =>
    by_cases hb : b = 0 ∨ b = 1
    · simp only [escape_encode, if_pos hb, List.cons_append]
      simp [escDecodeAux, ih]
    · have hb0 : b ≠ 0 := by omega
      have hb1 : b ≠ 1 := by omega
      simp only [escape_encode, if_neg hb, List.cons_append]
      simp [escDecodeAux, hb0, hb1, ih]

/-! ### Claim theorems: integer order, escape order, escape shape -/

/-- C1: for every fixed-width integer type implemented (`u8..u128` as byte
widths `w` with values below `2^(8w)`, `i8..i128` as two's-complement values
of byte width `w ≥ 1`), `a < b` holds iff `to_key a` is byte-wise
lexicographically less than `to_key b`. -/
theorem C1_int_order_preservation :
    (∀ (w a b : Nat), a < 2 ^ (8 * w) → b < 2 ^ (8 * w) →
      (byteLt (uToKey w a) (uToKey w b) = true ↔ a < b)) ∧
    (∀ (w : Nat) (v1 v2 : Int), 1 ≤ w →
      -(((2 ^ (8 * w - 1) : Nat) : Int)) ≤ v1 → v1 < ((2 ^ (8 * w - 1) : Nat) : Int) →
      -(((2 ^ (8 * w - 1) : Nat) : Int)) ≤ v2 → v2 < ((2 ^ (8 * w - 1) : Nat) : Int) →
      (byteLt (iToKey w v1) (iToKey w v2) = true ↔ v1 < v2)) := by
  constructor
  · intro w a b ha hb
    rw [two_pow_eq_256_pow] at ha hb
    rw [uToKey, uToKey, byteLt_toBeBytes ha hb]
    simp
  · intro w v1 v2 hw h11 h12 h21 h22
    have hpowN : (2 : Nat) ^ (8 * w) = 2 ^ (8 * w - 1) + 2 ^ (8 * w - 1) :=
      two_pow_split (show 1 ≤ 8 * w by omega)
    have e1 := toPat_xor hw h11 h12
    have e2 := toPat_xor hw h21 h22
    have hb1 : (v1 + ((2 ^ (8 * w - 1) : Nat) : Int)).toNat < 256 ^ w := by
      rw [← two_pow_eq_256_pow]; omega
    have hb2 : (v2 + ((2 ^ (8 * w - 1) : Nat) : Int)).toNat < 256 ^ w := by
      rw [← two_pow_eq_256_pow]; omega
    rw [iToKey, iToKey, e1, e2, byteLt_toBeBytes hb1 hb2]
    simp only [decide_eq_true_eq]
    omega

/-- Witness for C1 at `u32`-style width 4 with `1 < 2` and `i32`-style
width 4 with `-1 < 0`. -/
theorem C1_int_order_preservation_witness :
    (byteLt (uToKey 4 1) (uToKey 4 2) = true ↔ (1 : Nat) < 2) ∧
    (byteLt (iToKey 4 (-1)) (iToKey 4 0) = true ↔ (-1 : Int) < 0) :=
  ⟨C1_int_order_preservation.1 4 1 2 (by norm_num) (by norm_num),
   C1_int_order_preservation.2 4 (-1) 0 (by norm_num) (by norm_num) (by norm_num)
     (by norm_num) (by norm_num)⟩

/-- C2: if `s1` is a strict prefix of `s2` then
`escape_encode s1 < escape_encode s2` byte-wise; and if `s1 < s2` byte-wise
with neither a prefix of the other, again `escape_encode s1 < escape_encode s2`. -/
theorem C2_escape_order_preservation :
    (∀ s1 s2 : List Nat, isPref s1 s2 = true → s1 ≠ s2 →
      byteLt (escape_encode s1) (escape_encode s2) = true) ∧
    (∀ s1 s2 : List Nat, byteLt s1 s2 = true →
      isPref s1 s2 = false → isPref s2 s1 = false →
      byteLt (escape_encode s1) (escape_encode s2) = true) := by
  constructor
  · intro s1 s2 hp hne
    exact (escape_encode_lt (byteLt_of_strict_pref hp hne)).1
  · intro s1 s2 h _ _
    exact (escape_encode_lt h).1

/-- Witness for C2 at `[1,2,3] ⊏ [1,2,3,0]` and `[1,2,3,0] < [1,2,4]`. -/
theorem C2_escape_order_preservation_witness :
    byteLt (escape_encode [1, 2, 3]) (escape_encode [1, 2, 3, 0]) = true ∧
    byteLt (escape_encode [1, 2, 3, 0]) (escape_encode [1, 2, 4]) = true :=
  ⟨C2_escape_order_preservation.1 [1, 2, 3] [1, 2, 3, 0] (by decide) (by decide),
   C2_escape_order_preservation.2 [1, 2, 3, 0] [1, 2, 4] (by decide) (by decide) (by decide)⟩

/-- C7: `escape_encode` emits, for each source byte in order, the escape
marker `1` before the byte when it is `0` or `1` and the byte alone
otherwise, followed by exactly one terminator byte `0` at the end. -/
theorem C7_escape_encode_shape (s : List Nat) :
    escape_encode s = (s.map escByteSpec).flatten ++ [0] := by
  induction s with
  | nil => simp [escape_encode]
  | cons b bs ih =>
    by_cases hb : b = 0 ∨ b = 1 <;> simp [escape_encode, hb, escByteSpec, ih]

/-! ### Claim theorems: unterminated input (C6) and truncation (C8) -/

theorem escDecodeAux_no_term {input : List Nat} {st : Bool} (h : hasTerm st input = false) :
    (escDecodeAux st input).2 = [] := by
  induction input generalizing st with
  | nil => cases st <;> simp [escDecodeAux]
  | cons b rest ih =>
    cases st with
    | false =>
      have h' : hasTerm true rest = false := by simpa [hasTerm] using h
      simp [escDecodeAux, ih h']
    | true =>
      by_cases hb0 : b = 0
      · subst hb0; simp [hasTerm] at h
      · by_cases hb1 : b = 1
        · subst hb1
          have h' : hasTerm false rest = false := by simpa [hasTerm] using h
          simp [escDecodeAux, ih h']
        · have h' : hasTerm true rest = false := by simpa [hasTerm, hb0, hb1] using h
          simp [escDecodeAux, hb0, hb1, ih h']

/-- C6 counterexample: the claim says decoding that hits end of input with no
unescaped `0x00` terminator fails, and in particular that decoding an empty
buffer as text fails; but `escape_decode` simply returns `Ok` when the source
is exhausted, so decoding the empty buffer as text succeeds with `""`. -/
theorem C6_counterexample : stringFromKey [] = .ok ([], []) := by
  simp [stringFromKey, vecFromKey, escape_decode, escDecodeAux, utf8Lossy, Except.map]

/-- C6 amended: if the input ends before an unescaped `0x00` terminator is
seen, decoding does NOT fail: it succeeds, returning the bytes accumulated so
far with the whole input consumed; in particular an empty buffer decodes as
the empty text. -/
theorem C6_amended_no_terminator :
    (∀ input : List Nat, hasTerm true input = false →
      vecFromKey input = .ok ((escape_decode input).1, [])) ∧
    stringFromKey [] = .ok ([], []) := by
  constructor
  · intro input h
    have h2 := escDecodeAux_no_term h
    simp only [vecFromKey, escape_decode, ← h2]
  · simp [stringFromKey, vecFromKey, escape_decode, escDecodeAux, utf8Lossy, Except.map]

/-- Witness for C6's amended claim at the unterminated input `[5, 1]`. -/
theorem C6_amended_no_terminator_witness :
    vecFromKey [5, 1] = .ok ((escape_decode [5, 1]).1, []) :=
  C6_amended_no_terminator.1 [5, 1] (by decide)

/-- C8: decoding any fixed-width type (unsigned or signed integers of any
byte width, floats of any byte width, and `bool`) from an input with fewer
bytes than the width fails with the truncation (unexpected-EOF) error. -/
theorem C8_truncation :
    (∀ (w : Nat) (input : List Nat), input.length < w → uFromKey w input = .error .eof) ∧
    (∀ (w : Nat) (input : List Nat), input.length < w → iFromKey w input = .error .eof) ∧
    (∀ (w : Nat) (input : List Nat), input.length < w → fFromKey w input = .error .eof) ∧
    (∀ input : List Nat, input.length < 1 → boolFromKey input = .error .eof) := by
  refine ⟨?_, ?_, ?_, ?_⟩
  · intro w input h
    simp [uFromKey, readExact, show ¬ w ≤ input.length by omega, Except.map]
  · intro w input h
    simp [iFromKey, readExact, show ¬ w ≤ input.length by omega, Except.map]
  · intro w input h
    simp [fFromKey, readExact, show ¬ w ≤ input.length by omega, Except.map]
  · intro input h
    simp [boolFromKey, readExact, show ¬ 1 ≤ input.length by omega, Except.map]

/-- Witness for C8: a 3-byte buffer fails to decode as a `u32`, and an empty
buffer fails to decode as a `bool`. -/
theorem C8_truncation_witness :
    uFromKey 4 [0, 1, 2] = .error .eof ∧ boolFromKey [] = .error .eof :=
  ⟨C8_truncation.1 4 [0, 1, 2] (by decide), C8_truncation.2.2.2 [] (by decide)⟩

/-! ### Claim theorems: float edge cases (C5) -/

/-- C5 counterexample: `0xFFFFFFFF` is a NaN bit pattern (sign bit set,
exponent all ones, mantissa nonzero), yet its key is NOT above the key of
`f32::INFINITY` — it is in fact strictly below the key of
`f32::NEG_INFINITY` (pattern `2^31 + f32Inf`).  This refutes the claim that
`to_key n > to_key INFINITY` for every NaN bit pattern `n`. -/
theorem C5_counterexample :
    isNan32 0xFFFFFFFF = true ∧
    byteLt (fToKey 4 f32Inf) (fToKey 4 0xFFFFFFFF) = false ∧
    byteLt (fToKey 4 0xFFFFFFFF) (fToKey 4 (2 ^ 31 + f32Inf)) = true := by
  decide

/-- C5 amended: for a float of byte width `w ≥ 1` with positive-infinity
pattern `ι` (so `2^(8w-1)` is `-0.0`, `0` is `+0.0`, `2^(8w-1) + ι` is
`NEG_INFINITY`, magnitude bits above `ι` mean NaN): the key of `-0.0` is
strictly below the key of `+0.0`; the key of `NEG_INFINITY` is minimal among
all non-NaN patterns; every NaN pattern with sign bit clear keys strictly
above `INFINITY`; and every NaN pattern with sign bit set keys strictly
below `NEG_INFINITY`. -/
theorem C5_float_edges (w ι : Nat) (hw : 1 ≤ w) (hι : ι < 2 ^ (8 * w - 1)) :
    (byteLt (fToKey w (2 ^ (8 * w - 1))) (fToKey w 0) = true) ∧
    (∀ p, p < 2 ^ (8 * w) → p % 2 ^ (8 * w - 1) ≤ ι →
      byteLt (fToKey w p) (fToKey w (2 ^ (8 * w - 1) + ι)) = false) ∧
    (∀ p, ι < p → p < 2 ^ (8 * w - 1) →
      byteLt (fToKey w ι) (fToKey w p) = true) ∧
    (∀ p, 2 ^ (8 * w - 1) + ι < p → p < 2 ^ (8 * w) →
      byteLt (fToKey w p) (fToKey w (2 ^ (8 * w - 1) + ι)) = true) := by
  have hW : 1 ≤ 8 * w := by omega
  have hsplit : (2 : Nat) ^ (8 * w) = 2 ^ (8 * w - 1) + 2 ^ (8 * w - 1) := two_pow_split hW
  have hMpos : 0 < (2 : Nat) ^ (8 * w - 1) := Nat.pos_pow_of_pos _ (by norm_num)
  have hkey : ∀ p, p < 2 ^ (8 * w) →
      fKeyPat (8 * w) p
        = if p < 2 ^ (8 * w - 1) then p + 2 ^ (8 * w - 1) else 2 ^ (8 * w) - 1 - p :=
    fun p hp => fKeyPat_eq hW hp
  have hlt : ∀ p, p < 2 ^ (8 * w) → fKeyPat (8 * w) p < 2 ^ (8 * w) :=
    fun p hp => fKeyPat_lt hW hp
  have hbe : ∀ p q, p < 2 ^ (8 * w) → q < 2 ^ (8 * w) →
      byteLt (fToKey w p) (fToKey w q)
        = decide (fKeyPat (8 * w) p < fKeyPat (8 * w) q) := by
    intro p q hp hq
    rw [fToKey, fToKey]
    apply byteLt_toBeBytes
    · rw [← two_pow_eq_256_pow]; exact hlt p hp
    · rw [← two_pow_eq_256_pow]; exact hlt q hq
  have hninf : 2 ^ (8 * w - 1) + ι < 2 ^ (8 * w) := by omega
  have hkeyninf : fKeyPat (8 * w) (2 ^ (8 * w - 1) + ι) = 2 ^ (8 * w - 1) - 1 - ι := by
    rw [hkey _ hninf, if_neg (by omega)]
    omega
  refine ⟨?_, ?_, ?_, ?_⟩
  · rw [hbe _ _ (by omega) (by omega), hkey _ (by omega), hkey _ (by omega),
      if_neg (by omega), if_pos (by omega)]
    simp only [decide_eq_true_eq]
    omega
  · intro p hp hmag
    rw [hbe _ _ hp hninf, hkeyninf, hkey _ hp]
    by_cases hsign : p < 2 ^ (8 * w - 1)
    · rw [if_pos hsign]
      simp only [decide_eq_false_iff_not]
      omega
    · rw [if_neg hsign]
      have hmod : p % 2 ^ (8 * w - 1) = p - 2 ^ (8 * w - 1) := by
        rw [Nat.mod_eq_sub_mod (by omega), Nat.mod_eq_of_lt (by omega)]
      simp only [decide_eq_false_iff_not]
      omega
  · intro p hp1 hp2
    rw [hbe _ _ (by omega) (by omega), hkey _ (by omega), hkey _ (by omega),
      if_pos (by omega), if_pos (by omega)]
    simp only [decide_eq_true_eq]
    omega
  · intro p hp1 hp2
    rw [hbe _ _ hp2 hninf, hkeyninf, hkey _ hp2, if_neg (by omega)]
    simp only [decide_eq_true_eq]
    omega

/-- Witness for C5's amended claim at `f32` (width 4, infinity pattern
`f32Inf`): `-0.0 < 0.0`, `+0.0`'s key is not below `NEG_INFINITY`'s, the
positive NaN `0x7F800001` keys above `INFINITY`, and the negative NaN
`0xFFFFFFFF` keys below `NEG_INFINITY`. -/
theorem C5_float_edges_witness :
    byteLt (fToKey 4 (2 ^ 31)) (fToKey 4 0) = true ∧
    byteLt (fToKey 4 0) (fToKey 4 (2 ^ 31 + f32Inf)) = false ∧
    byteLt (fToKey 4 f32Inf) (fToKey 4 0x7F800001) = true ∧
    byteLt (fToKey 4 0xFFFFFFFF) (fToKey 4 (2 ^ 31 + f32Inf)) = true := by
  have h := C5_float_edges 4 f32Inf (by norm_num) (by norm_num [f32Inf])
  exact ⟨h.1, h.2.1 0 (by norm_num) (by norm_num [f32Inf]),
    h.2.2.1 0x7F800001 (by norm_num [f32Inf]) (by norm_num),
    h.2.2.2 0xFFFFFFFF (by norm_num [f32Inf]) (by norm_num)⟩

/-! ### Round-trip lemmas (decoding consumes exactly the encoding) -/

theorem uFromKey_round {w n : Nat} (h : n < 2 ^ (8 * w)) (rest : List Nat) :
    uFromKey w (uToKey w n ++ rest) = .ok (n, rest) := by
  have hlen : (toBeBytes w n).length = w := toBeBytes_length w n
  rw [uToKey, uFromKey, readExact, if_pos (by rw [List.length_append, hlen]; omega)]
  rw [List.take_left' hlen, List.drop_left' hlen]
  rw [two_pow_eq_256_pow] at h
  simp [Except.map, fromBeBytes_toBeBytes h]

theorem iFromKey_round {w : Nat} {v : Int} (hw : 1 ≤ w)
    (h1 : -(((2 ^ (8 * w - 1) : Nat) : Int)) ≤ v) (h2 : v < ((2 ^ (8 * w - 1) : Nat) : Int))
    (rest : List Nat) :
    iFromKey w (iToKey w v ++ rest) = .ok (v, rest) := by
  have hW : 1 ≤ 8 * w := by omega
  have hsplit : (2 : Nat) ^ (8 * w) = 2 ^ (8 * w - 1) + 2 ^ (8 * w - 1) := two_pow_split hW
  have hx := toPat_xor hw h1 h2
  have hP : (v + ((2 ^ (8 * w - 1) : Nat) : Int)).toNat < 2 ^ (8 * w) := by omega
  have hlen : (toBeBytes w (toPat (8 * w) v ^^^ 2 ^ (8 * w - 1))).length = w :=
    toBeBytes_length w _
  rw [iToKey, iFromKey, readExact, if_pos (by rw [List.length_append, hlen]; omega)]
  rw [List.take_left' hlen, List.drop_left' hlen]
  have hbound : (toPat (8 * w) v ^^^ 2 ^ (8 * w - 1)) < 256 ^ w := by
    rw [← two_pow_eq_256_pow, hx]; exact hP
  simp only [Except.map, fromBeBytes_toBeBytes hbound]
  rw [hx, xor_min_eq hW hP]
  by_cases hv : 0 ≤ v
  · rw [if_neg (by omega)]
    rw [patToInt, if_pos (by omega)]
    simp only [Except.ok.injEq, Prod.mk.injEq, and_true]
    omega
  · rw [if_pos (by omega)]
    rw [patToInt, if_neg (by omega)]
    simp only [Except.ok.injEq, Prod.mk.injEq, and_true]
    omega

theorem fFromKey_round {w p : Nat} (hw : 1 ≤ w) (hp : p < 2 ^ (8 * w)) (rest : List Nat) :
    fFromKey w (fToKey w p ++ rest) = .ok (p, rest) := by
  have hW : 1 ≤ 8 * w := by omega
  have hsplit : (2 : Nat) ^ (8 * w) = 2 ^ (8 * w - 1) + 2 ^ (8 * w - 1) := two_pow_split hW
  have hkb : fKeyPat (8 * w) p < 2 ^ (8 * w) := fKeyPat_lt hW hp
  have hlen : (toBeBytes w (fKeyPat (8 * w) p)).length = w := toBeBytes_length w _
  rw [fToKey, fFromKey, readExact, if_pos (by rw [List.length_append, hlen]; omega)]
  rw [List.take_left' hlen, List.drop_left' hlen]
  have hkb' : fKeyPat (8 * w) p < 256 ^ w := by rw [← two_pow_eq_256_pow]; exact hkb
  simp only [Except.map, fromBeBytes_toBeBytes hkb']
  rw [fKeyPat_eq hW hp, fDecPat_eq hW (by by_cases hs : p < 2 ^ (8 * w - 1) <;>
    simp [hs] <;> omega)]
  by_cases hs : p < 2 ^ (8 * w - 1)
  · rw [if_pos hs, if_neg (by omega)]
    simp only [Except.ok.injEq, Prod.mk.injEq, and_true]
    omega
  · rw [if_neg hs, if_pos (by omega)]
    simp only [Except.ok.injEq, Prod.mk.injEq, and_true]
    omega

theorem boolFromKey_round (b : Bool) (rest : List Nat) :
    boolFromKey (boolToKey b ++ rest) = .ok (b, rest) := by
  cases b <;> simp [boolToKey, boolFromKey, readExact, Except.map]

theorem vecFromKey_round (s rest : List Nat) :
    vecFromKey (vecToKey s ++ rest) = .ok (s, rest) := by
  simp [vecFromKey, vecToKey, escape_decode, escDecodeAux_escape_encode]

/-! ### UTF-8 lossy decoding lemmas -/

theorem utf8Lossy_ascii {b1 : Nat} (h : b1 < 0x80) (rest : List Nat) :
    utf8Lossy (b1 :: rest) = b1 :: utf8Lossy rest := by
  rw [utf8Lossy.eq_def]
  simp [h]

theorem utf8Lossy_two {b1 b2 : Nat} (h1 : 0xC2 ≤ b1) (h2 : b1 ≤ 0xDF)
    (hc : cont b2 = true) (rest : List Nat) :
    utf8Lossy (b1 :: b2 :: rest) = ((b1 - 0xC0) * 64 + (b2 - 0x80)) :: utf8Lossy rest := by
  rw [utf8Lossy.eq_def]
  have h3 : ¬ b1 < 0x80 := by omega
  simp [h1, h2, h3, hc]

theorem utf8Lossy_three {b1 b2 b3 : Nat} (h1 : 0xE0 ≤ b1) (h2 : b1 ≤ 0xEF)
    (hs : sec3 b1 b2 = true) (hc : cont b3 = true) (rest : List Nat) :
    utf8Lossy (b1 :: b2 :: b3 :: rest)
      = ((b1 - 0xE0) * 4096 + (b2 - 0x80) * 64 + (b3 - 0x80)) :: utf8Lossy rest := by
  rw [utf8Lossy.eq_def]
  have h3 : ¬ b1 < 0x80 := by omega
  have h4 : ¬ (0xC2 ≤ b1 && b1 ≤ 0xDF) = true := by simp; omega
  simp [h1, h2, h3, h4, hs, hc]

theorem utf8Lossy_four {b1 b2 b3 b4 : Nat} (h1 : 0xF0 ≤ b1) (h2 : b1 ≤ 0xF4)
    (hs : sec4 b1 b2 = true) (hc : cont b3 = true) (hd : cont b4 = true) (rest : List Nat) :
    utf8Lossy (b1 :: b2 :: b3 :: b4 :: rest)
      = ((b1 - 0xF0) * 262144 + (b2 - 0x80) * 4096 + (b3 - 0x80) * 64 + (b4 - 0x80))
        :: utf8Lossy rest := by
  rw [utf8Lossy.eq_def]
  have h3 : ¬ b1 < 0x80 := by omega
  have h4 : ¬ (0xC2 ≤ b1 && b1 ≤ 0xDF) = true := by simp; omega
  have h5 : ¬ (0xE0 ≤ b1 && b1 ≤ 0xEF) = true := by simp; omega
  simp [h1, h2, h3, h4, h5, hs, hc, hd]

set_option maxRecDepth 8192

theorem utf8Lossy_encodeChar {c : Nat} (hc : validScalar c) (tail : List Nat) :
    utf8Lossy (utf8EncodeChar c ++ tail) = c :: utf8Lossy tail := by
  rcases hc with hlow | ⟨hge, hlt⟩
  case inr =>
    by_cases h3 : c < 0x10000
    · rw [utf8EncodeChar, if_neg (by omega), if_neg (by omega), if_pos h3]
      rw [List.cons_append, List.cons_append, List.cons_append, List.nil_append]
      rw [utf8Lossy_three (by omega) (by omega) ?hs (by simp [cont]; omega)]
      · congr 1
        omega
      case hs =>
        simp only [sec3, cont, Bool.or_eq_true, Bool.and_eq_true, beq_iff_eq,
          decide_eq_true_eq]
        omega
    · rw [utf8EncodeChar, if_neg (by omega), if_neg (by omega), if_neg (by omega)]
      rw [List.cons_append, List.cons_append, List.cons_append, List.cons_append,
        List.nil_append]
      rw [utf8Lossy_four (by omega) (by omega) ?hs (by simp [cont]; omega)
        (by simp [cont]; omega)]
      · congr 1
        omega
      case hs =>
        simp only [sec4, cont, Bool.or_eq_true, Bool.and_eq_true, beq_iff_eq,
          decide_eq_true_eq]
        omega
  case inl =>
    by_cases h1 : c < 0x80
    · rw [utf8EncodeChar, if_pos h1, List.cons_append, List.nil_append, utf8Lossy_ascii h1]
    · by_cases h2 : c < 0x800
      · rw [utf8EncodeChar, if_neg h1, if_pos h2, List.cons_append, List.cons_append,
          List.nil_append]
        rw [utf8Lossy_two (by omega) (by omega) (by simp [cont]; omega)]
        congr 1
        omega
      · rw [utf8EncodeChar, if_neg h1, if_neg h2, if_pos (by omega)]
        rw [List.cons_append, List.cons_append, List.cons_append, List.nil_append]
        rw [utf8Lossy_three (by omega) (by omega) ?hs (by simp [cont]; omega)]
        · congr 1
          omega
        case hs =>
          simp only [sec3, cont, Bool.or_eq_true, Bool.and_eq_true, beq_iff_eq,
            decide_eq_true_eq]
          omega

theorem utf8Lossy_utf8Encode {s : List Nat} (hs : ∀ c ∈ s, validScalar c) :
    utf8Lossy (utf8Encode s) = s := by
  induction s with
  | nil => simp [utf8Encode, utf8Lossy]
  | cons c cs ih =>
    have h1 : utf8Encode (c :: cs) = utf8EncodeChar c ++ utf8Encode cs := by
      simp [utf8Encode]
    rw [h1, utf8Lossy_encodeChar (hs c (by simp)) (utf8Encode cs),
      ih (fun x hx => hs x (by simp [hx]))]

theorem validUtf8_ascii {b1 : Nat} (h : b1 < 0x80) (rest : List Nat) :
    validUtf8 (b1 :: rest) = validUtf8 rest := by
  rw [validUtf8.eq_def]
  simp [h]

theorem validUtf8_two {b1 b2 : Nat} (h1 : 0xC2 ≤ b1) (h2 : b1 ≤ 0xDF)
    (hc : cont b2 = true) (rest : List Nat) :
    validUtf8 (b1 :: b2 :: rest) = validUtf8 rest := by
  rw [validUtf8.eq_def]
  have h3 : ¬ b1 < 0x80 := by omega
  simp [h1, h2, h3, hc]

theorem validUtf8_three {b1 b2 b3 : Nat} (h1 : 0xE0 ≤ b1) (h2 : b1 ≤ 0xEF)
    (hs : sec3 b1 b2 = true) (hc : cont b3 = true) (rest : List Nat) :
    validUtf8 (b1 :: b2 :: b3 :: rest) = validUtf8 rest := by
  rw [validUtf8.eq_def]
  have h3 : ¬ b1 < 0x80 := by omega
  have h4 : ¬ (0xC2 ≤ b1 && b1 ≤ 0xDF) = true := by simp; omega
  simp [h1, h2, h3, h4, hs, hc]

theorem validUtf8_four {b1 b2 b3 b4 : Nat} (h1 : 0xF0 ≤ b1) (h2 : b1 ≤ 0xF4)
    (hs : sec4 b1 b2 = true) (hc : cont b3 = true) (hd : cont b4 = true) (rest : List Nat) :
    validUtf8 (b1 :: b2 :: b3 :: b4 :: rest) = validUtf8 rest := by
  rw [validUtf8.eq_def]
  have h3 : ¬ b1 < 0x80 := by omega
  have h4 : ¬ (0xC2 ≤ b1 && b1 ≤ 0xDF) = true := by simp; omega
  have h5 : ¬ (0xE0 ≤ b1 && b1 ≤ 0xEF) = true := by simp; omega
  simp [h1, h2, h3, h4, h5, hs, hc, hd]

theorem utf8Lossy_two_err {b1 b2 : Nat} (h1 : 0xC2 ≤ b1) (h2 : b1 ≤ 0xDF)
    (hc : cont b2 = false) (rest : List Nat) :
    utf8Lossy (b1 :: b2 :: rest) = 0xFFFD :: utf8Lossy (b2 :: rest) := by
  rw [utf8Lossy.eq_def]
  have h3 : ¬ b1 < 0x80 := by omega
  simp [h1, h2, h3, hc]

theorem utf8Lossy_three_err3 {b1 b2 b3 : Nat} (h1 : 0xE0 ≤ b1) (h2 : b1 ≤ 0xEF)
    (hs : sec3 b1 b2 = true) (hc : cont b3 = false) (rest : List Nat) :
    utf8Lossy (b1 :: b2 :: b3 :: rest) = 0xFFFD :: utf8Lossy (b3 :: rest) := by
  rw [utf8Lossy.eq_def]
  have h3 : ¬ b1 < 0x80 := by omega
  have h4 : ¬ (0xC2 ≤ b1 && b1 ≤ 0xDF) = true := by simp; omega
  simp [h1, h2, h3, h4, hs, hc]

theorem utf8Lossy_three_nil3 {b1 b2 : Nat} (h1 : 0xE0 ≤ b1) (h2 : b1 ≤ 0xEF)
    (hs : sec3 b1 b2 = true) :
    utf8Lossy [b1, b2] = [0xFFFD] := by
  rw [utf8Lossy.eq_def]
  have h3 : ¬ b1 < 0x80 := by omega
  have h4 : ¬ (0xC2 ≤ b1 && b1 ≤ 0xDF) = true := by simp; omega
  simp [h1, h2, h3, h4, hs]

theorem utf8Lossy_three_err2 {b1 b2 : Nat} (h1 : 0xE0 ≤ b1) (h2 : b1 ≤ 0xEF)
    (hs : sec3 b1 b2 = false) (rest : List Nat) :
    utf8Lossy (b1 :: b2 :: rest) = 0xFFFD :: utf8Lossy (b2 :: rest) := by
  rw [utf8Lossy.eq_def]
  have h3 : ¬ b1 < 0x80 := by omega
  have h4 : ¬ (0xC2 ≤ b1 && b1 ≤ 0xDF) = true := by simp; omega
  simp [h1, h2, h3, h4, hs]

theorem utf8Lossy_four_err4 {b1 b2 b3 b4 : Nat} (h1 : 0xF0 ≤ b1) (h2 : b1 ≤ 0xF4)
    (hs : sec4 b1 b2 = true) (hc : cont b3 = true) (hd : cont b4 = false) (rest : List Nat) :
    utf8Lossy (b1 :: b2 :: b3 :: b4 :: rest) = 0xFFFD :: utf8Lossy (b4 :: rest) := by
  rw [utf8Lossy.eq_def]
  have h3 : ¬ b1 < 0x80 := by omega
  have h4 : ¬ (0xC2 ≤ b1 && b1 ≤ 0xDF) = true := by simp; omega
  have h5 : ¬ (0xE0 ≤ b1 && b1 ≤ 0xEF) = true := by simp; omega
  simp [h1, h2, h3, h4, h5, hs, hc, hd]

theorem utf8Lossy_four_nil4 {b1 b2 b3 : Nat} (h1 : 0xF0 ≤ b1) (h2 : b1 ≤ 0xF4)
    (hs : sec4 b1 b2 = true) (hc : cont b3 = true) :
    utf8Lossy [b1, b2, b3] = [0xFFFD] := by
  rw [utf8Lossy.eq_def]
  have h3 : ¬ b1 < 0x80 := by omega
  have h4 : ¬ (0xC2 ≤ b1 && b1 ≤ 0xDF) = true := by simp; omega
  have h5 : ¬ (0xE0 ≤ b1 && b1 ≤ 0xEF) = true := by simp; omega
  simp [h1, h2, h3, h4, h5, hs, hc]

theorem utf8Lossy_four_err3 {b1 b2 b3 : Nat} (h1 : 0xF0 ≤ b1) (h2 : b1 ≤ 0xF4)
    (hs : sec4 b1 b2 = true) (hc : cont b3 = false) (rest : List Nat) :
    utf8Lossy (b1 :: b2 :: b3 :: rest) = 0xFFFD :: utf8Lossy (b3 :: rest) := by
  rw [utf8Lossy.eq_def]
  have h3 : ¬ b1 < 0x80 := by omega
  have h4 : ¬ (0xC2 ≤ b1 && b1 ≤ 0xDF) = true := by simp; omega
  have h5 : ¬ (0xE0 ≤ b1 && b1 ≤ 0xEF) = true := by simp; omega
  simp [h1, h2, h3, h4, h5, hs, hc]

theorem utf8Lossy_four_nil3 {b1 b2 : Nat} (h1 : 0xF0 ≤ b1) (h2 : b1 ≤ 0xF4)
    (hs : sec4 b1 b2 = true) :
    utf8Lossy [b1, b2] = [0xFFFD] := by
  rw [utf8Lossy.eq_def]
  have h3 : ¬ b1 < 0x80 := by omega
  have h4 : ¬ (0xC2 ≤ b1 && b1 ≤ 0xDF) = true := by simp; omega
  have h5 : ¬ (0xE0 ≤ b1 && b1 ≤ 0xEF) = true := by simp; omega
  simp [h1, h2, h3, h4, h5, hs]

theorem utf8Lossy_four_err2 {b1 b2 : Nat} (h1 : 0xF0 ≤ b1) (h2 : b1 ≤ 0xF4)
    (hs : sec4 b1 b2 = false) (rest : List Nat) :
    utf8Lossy (b1 :: b2 :: rest) = 0xFFFD :: utf8Lossy (b2 :: rest) := by
  rw [utf8Lossy.eq_def]
  have h3 : ¬ b1 < 0x80 := by omega
  have h4 : ¬ (0xC2 ≤ b1 && b1 ≤ 0xDF) = true := by simp; omega
  have h5 : ¬ (0xE0 ≤ b1 && b1 ≤ 0xEF) = true := by simp; omega
  simp [h1, h2, h3, h4, h5, hs]

theorem utf8Lossy_single {b1 : Nat} (h : 0x80 ≤ b1) : utf8Lossy [b1] = [0xFFFD] := by
  rw [utf8Lossy.eq_def]
  have h0 : ¬ b1 < 0x80 := by omega
  simp only [if_neg h0]
  split_ifs <;> simp [utf8Lossy]

theorem utf8Lossy_bad_lead {b1 : Nat} (h0 : 0x80 ≤ b1)
    (hn2 : ¬ (0xC2 ≤ b1 ∧ b1 ≤ 0xDF)) (hn3 : ¬ (0xE0 ≤ b1 ∧ b1 ≤ 0xEF))
    (hn4 : ¬ (0xF0 ≤ b1 ∧ b1 ≤ 0xF4)) (rest : List Nat) :
    utf8Lossy (b1 :: rest) = 0xFFFD :: utf8Lossy rest := by
  rw [utf8Lossy.eq_def]
  have h1 : ¬ b1 < 0x80 := by omega
  have h2 : ¬ (0xC2 ≤ b1 && b1 ≤ 0xDF) = true := by simp; omega
  have h3 : ¬ (0xE0 ≤ b1 && b1 ≤ 0xEF) = true := by simp; omega
  have h4 : ¬ (0xF0 ≤ b1 && b1 ≤ 0xF4) = true := by simp; omega
  simp [h1, h2, h3, h4]

theorem fffd_of_invalid (l : List Nat) : validUtf8 l = false → 0xFFFD ∈ utf8Lossy l := by
  induction l using utf8Lossy.induct with
  | case1 =>
    intro hv
    rw [validUtf8.eq_def] at hv
    simp at hv
  | case2 b rest h ih =>
    intro hv
    rw [validUtf8_ascii h] at hv
    rw [utf8Lossy_ascii h]
    exact List.mem_cons_of_mem _ (ih hv)
  | case3 b hn1 h2 b2 rest2 hc ih =>
    intro hv
    have h2p : 194 ≤ b ∧ b ≤ 223 := by simpa using h2
    rw [validUtf8_two (by omega) (by omega) hc] at hv
    rw [utf8Lossy_two (by omega) (by omega) hc]
    exact List.mem_cons_of_mem _ (ih hv)
  | case4 b hn1 h2 b2 rest2 hnc ih =>
    intro hv
    have h2p : 194 ≤ b ∧ b ≤ 223 := by simpa using h2
    have hcf : cont b2 = false := by simpa using hnc
    rw [utf8Lossy_two_err (by omega) (by omega) hcf]
    exact List.mem_cons_self _ _
  | case5 b hn1 h2 =>
    intro hv
    have h2p : 194 ≤ b ∧ b ≤ 223 := by simpa using h2
    rw [utf8Lossy_single (by omega)]
    exact List.mem_cons_self _ _
  | case6 b hn1 hn2 h3 b2 hs b3 rest2 hc ih =>
    intro hv
    have h3p : 224 ≤ b ∧ b ≤ 239 := by simpa using h3
    rw [validUtf8_three (by omega) (by omega) hs hc] at hv
    rw [utf8Lossy_three (by omega) (by omega) hs hc]
    exact List.mem_cons_of_mem _ (ih hv)
  | case7 b hn1 hn2 h3 b2 hs b3 rest2 hnc ih =>
    intro hv
    have h3p : 224 ≤ b ∧ b ≤ 239 := by simpa using h3
    have hcf : cont b3 = false := by simpa using hnc
    rw [utf8Lossy_three_err3 (by omega) (by omega) hs hcf]
    exact List.mem_cons_self _ _
  | case8 b hn1 hn2 h3 b2 hs =>
    intro hv
    have h3p : 224 ≤ b ∧ b ≤ 239 := by simpa using h3
    rw [utf8Lossy_three_nil3 (by omega) (by omega) hs]
    exact List.mem_cons_self _ _
  | case9 b hn1 hn2 h3 b2 rest2 hns ih =>
    intro hv
    have h3p : 224 ≤ b ∧ b ≤ 239 := by simpa using h3
    have hsf : sec3 b b2 = false := by simpa using hns
    rw [utf8Lossy_three_err2 (by omega) (by omega) hsf]
    exact List.mem_cons_self _ _
  | case10 b hn1 hn2 h3 =>
    intro hv
    have h3p : 224 ≤ b ∧ b ≤ 239 := by simpa using h3
    rw [utf8Lossy_single (by omega)]
    exact List.mem_cons_self _ _
  | case11 b hn1 hn2 hn3 h4 b2 hs b3 hc3 b4 rest2 hc4 ih =>
    intro hv
    have h4p : 240 ≤ b ∧ b ≤ 244 := by simpa using h4
    rw [validUtf8_four (by omega) (by omega) hs hc3 hc4] at hv
    rw [utf8Lossy_four (by omega) (by omega) hs hc3 hc4]
    exact List.mem_cons_of_mem _ (ih hv)
  | case12 b hn1 hn2 hn3 h4 b2 hs b3 hc3 b4 rest2 hnc4 ih =>
    intro hv
    have h4p : 240 ≤ b ∧ b ≤ 244 := by simpa using h4
    have hcf : cont b4 = false := by simpa using hnc4
    rw [utf8Lossy_four_err4 (by omega) (by omega) hs hc3 hcf]
    exact List.mem_cons_self _ _
  | case13 b hn1 hn2 hn3 h4 b2 hs b3 hc3 =>
    intro hv
    have h4p : 240 ≤ b ∧ b ≤ 244 := by simpa using h4
    rw [utf8Lossy_four_nil4 (by omega) (by omega) hs hc3]
    exact List.mem_cons_self _ _
  | case14 b hn1 hn2 hn3 h4 b2 hs b3 rest2 hnc3 ih =>
    intro hv
    have h4p : 240 ≤ b ∧ b ≤ 244 := by simpa using h4
    have hcf : cont b3 = false := by simpa using hnc3
    rw [utf8Lossy_four_err3 (by omega) (by omega) hs hcf]
    exact List.mem_cons_self _ _
  | case15 b hn1 hn2 hn3 h4 b2 hs =>
    intro hv
    have h4p : 240 ≤ b ∧ b ≤ 244 := by simpa using h4
    rw [utf8Lossy_four_nil3 (by omega) (by omega) hs]
    exact List.mem_cons_self _ _
  | case16 b hn1 hn2 hn3 h4 b2 rest2 hns ih =>
    intro hv
    have h4p : 240 ≤ b ∧ b ≤ 244 := by simpa using h4
    have hsf : sec4 b b2 = false := by simpa using hns
    rw [utf8Lossy_four_err2 (by omega) (by omega) hsf]
    exact List.mem_cons_self _ _
  | case17 b hn1 hn2 hn3 h4 =>
    intro hv
    have h4p : 240 ≤ b ∧ b ≤ 244 := by simpa using h4
    rw [utf8Lossy_single (by omega)]
    exact List.mem_cons_self _ _
  | case18 b rest hn1 hn2 hn3 hn4 ih =>
    intro hv
    have hn2p : ¬ (194 ≤ b ∧ b ≤ 223) := by simpa using hn2
    have hn3p : ¬ (224 ≤ b ∧ b ≤ 239) := by simpa using hn3
    have hn4p : ¬ (240 ≤ b ∧ b ≤ 244) := by simpa using hn4
    rw [utf8Lossy_bad_lead (by omega) (by omega) (by omega) (by omega)]
    exact List.mem_cons_self _ _

theorem stringFromKey_round {s : List Nat} (hs : ∀ c ∈ s, validScalar c) (rest : List Nat) :
    stringFromKey (stringToKey s ++ rest) = .ok (s, rest) := by
  simp only [stringFromKey, stringToKey]
  have h : vecFromKey (escape_encode (utf8Encode s) ++ rest) = .ok (utf8Encode s, rest) :=
    vecFromKey_round (utf8Encode s) rest
  rw [h]
  simp [Except.map, utf8Lossy_utf8Encode hs]

theorem pairFromKey_round {b : Nat} (hb : b < 2 ^ 16) (a rest : List Nat) :
    pairFromKey (pairToKey a b ++ rest) = .ok ((a, b), rest) := by
  have hb' : b < 2 ^ (8 * 2) := by norm_num at hb ⊢; omega
  rw [pairToKey, List.append_assoc]
  have h1 := vecFromKey_round a (uToKey 2 b ++ rest)
  have h2 := uFromKey_round hb' rest
  simp only [pairFromKey, h1, bind, Except.bind]
  rw [h2]
  rfl

/-! ### Claim theorems: tuples (C3), round-trips (C4), lossy text (C9),
trailing bytes (C10) -/

/-- C3: for the tuple shape `(Vec<u8>, u16)`, the tuple key is the
concatenation of the member keys in order, and comparison of tuple keys is
lexicographic over the members: a strictly smaller first member dominates for
any second members, and with equal first members the order is the second
members' order. -/
theorem C3_tuple_lex :
    (∀ (a : List Nat) (b : Nat), pairToKey a b = vecToKey a ++ uToKey 2 b) ∧
    (∀ (a1 a2 : List Nat) (b1 b2 : Nat), byteLt a1 a2 = true →
      byteLt (pairToKey a1 b1) (pairToKey a2 b2) = true) ∧
    (∀ (a : List Nat) (b1 b2 : Nat), b1 < 2 ^ 16 → b2 < 2 ^ 16 →
      (byteLt (pairToKey a b1) (pairToKey a b2) = true ↔ b1 < b2)) := by
  refine ⟨fun a b => rfl, ?_, ?_⟩
  · intro a1 a2 b1 b2 h
    obtain ⟨hlt, hpref⟩ := escape_encode_lt h
    exact byteLt_append_of_lt hlt hpref _ _
  · intro a b1 b2 h1 h2
    rw [pairToKey, pairToKey, byteLt_append_left]
    have h1' : b1 < 256 ^ 2 := by norm_num at h1 ⊢; omega
    have h2' : b2 < 256 ^ 2 := by norm_num at h2 ⊢; omega
    simp only [uToKey]
    rw [byteLt_toBeBytes h1' h2']
    simp

/-- Witness for C3 at the spec's concrete examples:
`([1,2], 0) < ([1,3], 65535)` and `([1,2], 1) < ([1,2], 2)`. -/
theorem C3_tuple_lex_witness :
    byteLt (pairToKey [1, 2] 0) (pairToKey [1, 3] 65535) = true ∧
    (byteLt (pairToKey [1, 2] 1) (pairToKey [1, 2] 2) = true ↔ (1 : Nat) < 2) :=
  ⟨C3_tuple_lex.2.1 [1, 2] [1, 3] 0 65535 (by decide),
   C3_tuple_lex.2.2 [1, 2] 1 2 (by norm_num) (by norm_num)⟩

/-- C4: for every supported scalar type, `from_key (to_key v)` succeeds and
returns `v` with no bytes left: unsigned integers of any byte width, signed
integers in two's-complement range, float bit patterns of any byte width
(bit-exact, NaN payloads included), `bool`, raw byte sequences, and
valid-scalar text. -/
theorem C4_roundtrip :
    (∀ (w n : Nat), n < 2 ^ (8 * w) → uFromKey w (uToKey w n) = .ok (n, [])) ∧
    (∀ (w : Nat) (v : Int), 1 ≤ w →
      -(((2 ^ (8 * w - 1) : Nat) : Int)) ≤ v → v < ((2 ^ (8 * w - 1) : Nat) : Int) →
      iFromKey w (iToKey w v) = .ok (v, [])) ∧
    (∀ (w p : Nat), 1 ≤ w → p < 2 ^ (8 * w) → fFromKey w (fToKey w p) = .ok (p, [])) ∧
    (∀ b : Bool, boolFromKey (boolToKey b) = .ok (b, [])) ∧
    (∀ s : List Nat, vecFromKey (vecToKey s) = .ok (s, [])) ∧
    (∀ s : List Nat, (∀ c ∈ s, validScalar c) →
      stringFromKey (stringToKey s) = .ok (s, [])) := by
  refine ⟨?_, ?_, ?_, ?_, ?_, ?_⟩
  · intro w n h
    simpa using uFromKey_round h []
  · intro w v hw h1 h2
    simpa using iFromKey_round hw h1 h2 []
  · intro w p hw hp
    simpa using fFromKey_round hw hp []
  · intro b
    simpa using boolFromKey_round b []
  · intro s
    simpa using vecFromKey_round s []
  · intro s hs
    simpa using stringFromKey_round hs []

/-- Witness for C4 at one concrete value per scalar type, including a NaN
bit pattern for the float case and multi-byte characters for the text case. -/
theorem C4_roundtrip_witness :
    uFromKey 4 (uToKey 4 5) = .ok (5, []) ∧
    iFromKey 4 (iToKey 4 (-1)) = .ok (-1, []) ∧
    fFromKey 4 (fToKey 4 0xFFC00001) = .ok (0xFFC00001, []) ∧
    boolFromKey (boolToKey true) = .ok (true, []) ∧
    vecFromKey (vecToKey [0, 1, 2, 255]) = .ok ([0, 1, 2, 255], []) ∧
    stringFromKey (stringToKey [36, 128, 8364, 66376]) = .ok ([36, 128, 8364, 66376], []) :=
  ⟨C4_roundtrip.1 4 5 (by norm_num),
   C4_roundtrip.2.1 4 (-1) (by norm_num) (by norm_num) (by norm_num),
   C4_roundtrip.2.2.1 4 0xFFC00001 (by norm_num) (by norm_num),
   C4_roundtrip.2.2.2.1 true,
   C4_roundtrip.2.2.2.2.1 [0, 1, 2, 255],
   C4_roundtrip.2.2.2.2.2 [36, 128, 8364, 66376] (by intro c hc; fin_cases hc <;> norm_num [validScalar])⟩

/-- C9: decoding text never fails: `String::from_key` escape-decodes to raw
bytes and then applies lossy UTF-8 conversion, so it returns `Ok` on every
input, and whenever the decoded byte span is not valid UTF-8 the resulting
text contains the replacement character `U+FFFD`. -/
theorem C9_lossy_text_decode :
    (∀ input : List Nat, ∃ s rest, stringFromKey input = .ok (s, rest)) ∧
    (∀ input : List Nat,
      stringFromKey input
        = .ok (utf8Lossy (escape_decode input).1, (escape_decode input).2)) ∧
    (∀ bytes : List Nat, validUtf8 bytes = false → 0xFFFD ∈ utf8Lossy bytes) :=
  ⟨fun _ => ⟨_, _, rfl⟩, fun _ => rfl, fffd_of_invalid⟩

/-- Witness for C9: the invalid byte `0xFF` decodes to a text containing the
replacement character. -/
theorem C9_lossy_text_decode_witness : 0xFFFD ∈ utf8Lossy [0xFF] :=
  C9_lossy_text_decode.2.2 [0xFF] (by rw [validUtf8.eq_def]; simp)

/-- C10: decoding consumes only the value's own encoding and ignores trailing
bytes, succeeding for every supported type; in particular a tuple decode with
leftover bytes after the last member is not an error, and the free function
`from_key` returns the value while discarding the unread remainder. -/
theorem C10_trailing_bytes :
    (∀ (w n : Nat) (rest : List Nat), n < 2 ^ (8 * w) →
      uFromKey w (uToKey w n ++ rest) = .ok (n, rest)) ∧
    (∀ (w : Nat) (v : Int) (rest : List Nat), 1 ≤ w →
      -(((2 ^ (8 * w - 1) : Nat) : Int)) ≤ v → v < ((2 ^ (8 * w - 1) : Nat) : Int) →
      iFromKey w (iToKey w v ++ rest) = .ok (v, rest)) ∧
    (∀ (w p : Nat) (rest : List Nat), 1 ≤ w → p < 2 ^ (8 * w) →
      fFromKey w (fToKey w p ++ rest) = .ok (p, rest)) ∧
    (∀ (b : Bool) (rest : List Nat), boolFromKey (boolToKey b ++ rest) = .ok (b, rest)) ∧
    (∀ (s rest : List Nat), vecFromKey (vecToKey s ++ rest) = .ok (s, rest)) ∧
    (∀ (a : List Nat) (b : Nat) (rest : List Nat), b < 2 ^ 16 →
      pairFromKey (pairToKey a b ++ rest) = .ok ((a, b), rest)) ∧
    (∀ (a : List Nat) (b : Nat) (rest : List Nat), b < 2 ^ 16 →
      from_key pairFromKey (pairToKey a b ++ rest) = .ok (a, b)) := by
  refine ⟨fun w n rest h => uFromKey_round h rest,
    fun w v rest hw h1 h2 => iFromKey_round hw h1 h2 rest,
    fun w p rest hw hp => fFromKey_round hw hp rest,
    boolFromKey_round,
    vecFromKey_round,
    fun a b rest hb => pairFromKey_round hb a rest,
    fun a b rest hb => ?_⟩
  rw [from_key, pairFromKey_round hb a rest]
  rfl

/-- Witness for C10 at one concrete padded input per decoder, with trailing
bytes `[9, 9]` left unread. -/
theorem C10_trailing_bytes_witness :
    uFromKey 4 (uToKey 4 5 ++ [9, 9]) = .ok (5, [9, 9]) ∧
    iFromKey 4 (iToKey 4 (-1) ++ [9, 9]) = .ok (-1, [9, 9]) ∧
    fFromKey 4 (fToKey 4 0 ++ [9, 9]) = .ok (0, [9, 9]) ∧
    boolFromKey (boolToKey false ++ [9, 9]) = .ok (false, [9, 9]) ∧
    vecFromKey (vecToKey [1, 2] ++ [9, 9]) = .ok ([1, 2], [9, 9]) ∧
    pairFromKey (pairToKey [1, 2] 7 ++ [9, 9]) = .ok (([1, 2], 7), [9, 9]) ∧
    from_key pairFromKey (pairToKey [1, 2] 7 ++ [9, 9]) = .ok ([1, 2], 7) :=
  ⟨C10_trailing_bytes.1 4 5 [9, 9] (by norm_num),
   C10_trailing_bytes.2.1 4 (-1) [9, 9] (by norm_num) (by norm_num) (by norm_num),
   C10_trailing_bytes.2.2.1 4 0 [9, 9] (by norm_num) (by norm_num),
   C10_trailing_bytes.2.2.2.1 false [9, 9],
   C10_trailing_bytes.2.2.2.2.1 [1, 2] [9, 9],
   C10_trailing_bytes.2.2.2.2.2.1 [1, 2] 7 [9, 9] (by norm_num),
   C10_trailing_bytes.2.2.2.2.2.2 [1, 2] 7 [9, 9] (by norm_num)⟩
